import Mathlib

/-!
Shallow embedding of `src/inventory.c` (Retail Store Inventory Management
System).  C strings are modelled as `List Char`; the C `int` quantity is
modelled as `ℤ` (no operation in any claim approaches the 2³¹ wrap, where the
C program's signed overflow would in any case be undefined); the C `double`
price is modelled as `ℚ` (exact-real idealisation of the binary values; the
claims under study never depend on binary rounding of the stored value, and
the 2-decimal formatting of `save_inventory` is modelled by round-half-even,
which is what `printf "%.2f"` performs).  The global array `g_items[0..g_count)`
is modelled as a `List Item`; each mutating C function that returns `bool` and
updates the globals becomes a pure function returning `Bool × List Item`,
failures leaving the list unchanged exactly as the C code leaves the globals
unchanged.  A file is modelled as the list of the lines `fgets` yields
(`fgets` splits at newlines; lines over 255 bytes are split into chunks, which
is still just some list of strings, so the model covers every file).
-/

/-- C `isspace` in the default locale: space, \t, \n, \v, \f, \r. -/
def isSpc (c : Char) : Bool :=
  c == ' ' || c == '\t' || c == '\n' || c == '\x0b' || c == '\x0c' || c == '\r'

/-- C `tolower` in the default locale, as used by `strcasecmp`: ASCII
uppercase letters map to lowercase, everything else is unchanged. -/
def lowerA (c : Char) : Char :=
  if 'A' ≤ c ∧ c ≤ 'Z' then Char.ofNat (c.toNat + 32) else c

/-- Lowered copy of a string; `strcasecmp a b == 0` iff the lowered copies
are equal. -/
def lowerStr (s : List Char) : List Char := s.map lowerA

/-- `trim` from inventory.c lines 48-56: strip leading then trailing
whitespace. -/
def trimRight (l : List Char) : List Char :=
  (l.reverse.dropWhile isSpc).reverse

/-- Trim leading and trailing whitespace (inventory.c `trim`). -/
def trim (l : List Char) : List Char :=
  trimRight (l.dropWhile isSpc)

/-- Split at commas keeping empty pieces (auxiliary for `fields`). -/
def splitComma : List Char → List (List Char)
  | [] => [[]]
  | c :: rest =>
    if c = ',' then [] :: splitComma rest
    else
      match splitComma rest with
      | [] => [[c]]
      | t :: ts => (c :: t) :: ts

/-- The sequence of tokens `strtok(-, ",")` yields on a line: the maximal
nonempty runs of non-comma characters, in order (strtok skips empty
tokens produced by leading, trailing or consecutive delimiters). -/
def fields (l : List Char) : List (List Char) :=
  (splitComma l).filter (fun t => ¬ t.isEmpty)

/-- Decimal digit character for a value below ten. -/
def digitChar (d : Nat) : Char := Char.ofNat (48 + d)

/-- Numeric value of one decimal digit character. -/
def digitVal (c : Char) : Nat := c.toNat - 48

/-- Whether every character of the list is a decimal digit. -/
def allDigits (l : List Char) : Bool := l.all Char.isDigit

/-- Value of a big-endian decimal digit string. -/
def digitsVal (l : List Char) : Nat :=
  l.foldl (fun a c => 10 * a + digitVal c) 0

/-- Big-endian decimal digits of a positive number (fuel-structured so that
it reduces definitionally; `natChars` supplies fuel `n ≥ n`). -/
def natCharsAux : Nat → Nat → List Char
  | 0, _ => []
  | fuel + 1, n =>
    if n = 0 then [] else natCharsAux fuel (n / 10) ++ [digitChar (n % 10)]

/-- Decimal rendering of a natural number, as `printf "%d"` prints it. -/
def natChars (n : Nat) : List Char :=
  if n = 0 then ['0'] else natCharsAux n n

/-- Decimal rendering of an integer, as `printf "%d"` prints it. -/
def intChars (q : Int) : List Char :=
  if q < 0 then '-' :: natChars (-q).toNat else natChars q.toNat

/-- Two-digit zero-padded rendering of a value below 100 (the fraction part
of `printf "%.2f"`). -/
def pad2 (m : Nat) : List Char := [digitChar (m / 10), digitChar (m % 10)]

/-- Model of `strtol(s, &ep, 10)` on an already-trimmed token, combined with
the load loop's check `*ep != '\0'` that the whole token was consumed:
`some v` when the token is fully consumed, `none` otherwise.  Notably the
empty token yields `some 0`: with no conversion `strtol` leaves `ep` at the
start of the (empty) string, so `*ep == '\0'` and the returned value is 0.
`strtol`'s clamping at `LONG_MAX` is not modelled: every clamped value is
rejected by the subsequent `0 ≤ v ≤ 1000000` range check just as the exact
value would be, and every accepted value is exact. -/
def parseIntTok (t : List Char) : Option Int :=
  match t with
  | [] => some 0
  | c :: ds =>
    if c = '+' then
      if ds ≠ [] ∧ allDigits ds then some ((digitsVal ds : Nat) : Int) else none
    else if c = '-' then
      if ds ≠ [] ∧ allDigits ds then some (-((digitsVal ds : Nat) : Int)) else none
    else if allDigits (c :: ds) then some ((digitsVal (c :: ds) : Nat) : Int)
    else none

/-- Decimal mantissa of `strtod`: `D+ (. D*)?` or `. D+`; returns the value
`ip.fp` (written with `mkRat` so that it reduces in the kernel) and the
unconsumed remainder. -/
def parseDecMantissa (l : List Char) : Option (ℚ × List Char) :=
  if (l.dropWhile Char.isDigit).head? = some '.' then
    if l.takeWhile Char.isDigit = [] ∧
        (l.dropWhile Char.isDigit).tail.takeWhile Char.isDigit = [] then none
    else
      some (mkRat (digitsVal (l.takeWhile Char.isDigit) *
          10 ^ ((l.dropWhile Char.isDigit).tail.takeWhile Char.isDigit).length +
          digitsVal ((l.dropWhile Char.isDigit).tail.takeWhile Char.isDigit))
        (10 ^ ((l.dropWhile Char.isDigit).tail.takeWhile Char.isDigit).length),
        (l.dropWhile Char.isDigit).tail.dropWhile Char.isDigit)
  else if l.takeWhile Char.isDigit = [] then none
  else some (mkRat (digitsVal (l.takeWhile Char.isDigit)) 1,
    l.dropWhile Char.isDigit)

/-- Exponent suffix of `strtod` after the `e`: `[+-]? D+`, which must consume
the rest of the token (otherwise `*ep != '\0'` rejects the line anyway). -/
def parseExp (l : List Char) : Option Int :=
  if l.head? = some '+' then
    if l.tail ≠ [] ∧ allDigits l.tail then some ((digitsVal l.tail : Nat) : Int)
    else none
  else if l.head? = some '-' then
    if l.tail ≠ [] ∧ allDigits l.tail then some (-((digitsVal l.tail : Nat) : Int))
    else none
  else if l ≠ [] ∧ allDigits l then some ((digitsVal l : Nat) : Int)
  else none

/-- Scale a rational by ten to an integer power, numerator/denominator-wise
(equal to `m * 10 ^ e`; stated this way so that it reduces in the kernel). -/
def qscalePow10 (m : ℚ) (e : Int) : ℚ :=
  if 0 ≤ e then mkRat (m.num * (10 : ℤ) ^ e.toNat) m.den
  else mkRat m.num (m.den * 10 ^ (-e).toNat)

/-- Model of `strtod(s, &ep)` on an already-trimmed token combined with the
check `*ep != '\0'`: decimal forms `[+-]? (D+ (. D*)? | . D+) ([eE][+-]?D+)?`,
the empty token yielding `some 0` (same `ep == nptr` edge as `strtol`).  The
hexadecimal, infinity and NaN forms of `strtod` are not modelled; no claim
under study involves them. -/
def strtodFull (t : List Char) : Option ℚ :=
  if t = [] then some 0
  else
    match parseDecMantissa
        (if t.head? = some '-' ∨ t.head? = some '+' then t.tail else t) with
    | none => none
    | some (m, rest) =>
      if rest = [] then some (if t.head? = some '-' then -m else m)
      else if rest.head? = some 'e' ∨ rest.head? = some 'E' then
        (parseExp rest.tail).map fun e =>
          if t.head? = some '-' then -(qscalePow10 m e) else qscalePow10 m e
      else none

/-- Round half to even, the rounding `printf` uses for `%.2f` (the tie
condition is expressed on the numerator and denominator so that the
definition reduces in the kernel; `2 * (x.num - ⌊x⌋ * x.den)` compared with
`x.den` is the fractional part compared with one half). -/
def rhe (x : ℚ) : ℤ :=
  if 2 * (x.num - Int.floor x * x.den) < (x.den : ℤ) then Int.floor x
  else if (x.den : ℤ) < 2 * (x.num - Int.floor x * x.den) then Int.floor x + 1
  else if Int.floor x % 2 = 0 then Int.floor x else Int.floor x + 1

/-- One hundred times a rational (numerator-wise, kernel-reducible). -/
def qscale100 (q : ℚ) : ℚ := mkRat (100 * q.num) q.den

/-- A price rounded to two decimal places the way `printf "%.2f"` rounds. -/
def round2 (q : ℚ) : ℚ := mkRat (rhe (qscale100 q)) 100

/-- The digit string `printf "%.2f"` produces for a nonnegative value. -/
def fmt2nn (q : ℚ) : List Char :=
  let n := (rhe (qscale100 q)).toNat
  natChars (n / 100) ++ '.' :: pad2 (n % 100)

/-- `printf "%.2f"` output for a price. -/
def fmt2 (q : ℚ) : List Char :=
  if q < 0 then '-' :: fmt2nn (-q) else fmt2nn q

example : natChars 1050 = ['1', '0', '5', '0'] := by decide
example : trim [' ', 'a', 'b', '\t'] = ['a', 'b'] := by decide
example : fields [',', 'a', ',', ',', 'b', 'c', ','] = [['a'], ['b', 'c']] := by
  decide
example : lowerStr ['A', 'b', '#'] = ['a', 'b', '#'] := by decide
example : parseIntTok ['4', '2'] = some 42 := by decide
example : parseIntTok [] = some 0 := by decide
example : parseIntTok ['4', 'x'] = none := by decide
example : strtodFull ['0', '.', '9', '9'] = some (mkRat 99 100) := by decide
example : strtodFull ['1', 'e', '2'] = some 100 := by decide
example : strtodFull ['.', '5'] = some (mkRat 1 2) := by decide
example : strtodFull ['-', '.', '5'] = some (-(mkRat 1 2)) := by decide
example : strtodFull ['1', 'e'] = none := by decide
example : strtodFull [] = some 0 := by decide
example : fmt2 1 = ['1', '.', '0', '0'] := by decide
example : fmt2 (mkRat 99 100) = ['0', '.', '9', '9'] := by decide
example : rhe (mkRat 5 2) = 2 := by decide
example : rhe (mkRat 7 2) = 4 := by decide
example : rhe (mkRat 51 2) = 26 := by decide

/-- Constant `MAX_ITEMS` from inventory.c line 27. -/
def MAX_ITEMS : Nat := 500

/-- Constant `MAX_NAME_LEN` from inventory.c line 28. -/
def MAX_NAME_LEN : Nat := 64

/-- The `Item` struct of inventory.c lines 33-37. -/
structure Item where
  name : List Char
  quantity : Int
  price : ℚ
deriving DecidableEq

/-- `find_item` (inventory.c lines 59-64): case-insensitive linear search,
index of the first match, `none` for the C function's `-1`. -/
def find_item : List Item → List Char → Option Nat
  | [], _ => none
  | it :: rest, name =>
    if lowerStr it.name = lowerStr name then some 0
    else (find_item rest name).map (· + 1)

/-- Replace the element at an index by the image under `f` (the in-place
update `g_items[idx].… = …` of the C code). -/
def modifyAt : List Item → Nat → (Item → Item) → List Item
  | [], _, _ => []
  | it :: rest, 0, f => f it :: rest
  | it :: rest, n + 1, f => it :: modifyAt rest n f

/-- `add_item` (inventory.c lines 200-230).  The C function returns `bool`
and mutates the global array; here it returns the flag together with the new
store, failures leaving the store unchanged.  Validation order is the C
order: name, quantity, price; then restock of an existing item (no capacity
check on that path), else capacity check and append. -/
def add_item (s : List Item) (name : List Char) (qty : Int) (price : ℚ) :
    Bool × List Item :=
  if name.length = 0 ∨ MAX_NAME_LEN ≤ name.length then (false, s)
  else if qty ≤ 0 then (false, s)
  else if price < 0 then (false, s)
  else
    match find_item s name with
    | some idx =>
      (true, modifyAt s idx fun it =>
        { it with quantity := it.quantity + qty, price := price })
    | none =>
      if MAX_ITEMS ≤ s.length then (false, s)
      else (true, s ++ [⟨name, qty, price⟩])

/-- `remove_item` (inventory.c lines 237-248): delete the first
case-insensitive match, shifting later entries left; not-found leaves the
store unchanged and reports failure. -/
def remove_item (s : List Item) (name : List Char) : Bool × List Item :=
  match find_item s name with
  | none => (false, s)
  | some idx => (true, s.eraseIdx idx)

/-- `update_quantity` (inventory.c lines 255-265): set an existing item's
stock to an absolute value `≥ 0`; there is no upper-bound check here. -/
def update_quantity (s : List Item) (name : List Char) (new_qty : Int) :
    Bool × List Item :=
  if new_qty < 0 then (false, s)
  else
    match find_item s name with
    | none => (false, s)
    | some idx => (true, modifyAt s idx fun it => { it with quantity := new_qty })

/-- The diagnostics `load_inventory` prints: `[WARN]`/`[INFO]` lines, tagged
with the 1-based line number where the C message includes one. -/
inductive Msg where
  | malformed (lineno : Nat)
  | badName (lineno : Nat)
  | badQty (lineno : Nat)
  | badPrice (lineno : Nat)
  | dup (lineno : Nat)
  | capacity
  | infoMissing
deriving DecidableEq

/-- One candidate line of `load_inventory` (inventory.c lines 106-158): the
line is already trimmed, non-blank, not a comment, and capacity has already
been checked.  `strtok` three times, trim each token, then validate name
length, quantity, price and duplicates in the C order; the result is either
the diagnostic of the first failed check or the committed item. -/
def loadStep (items : List Item) (lineno : Nat) (t : List Char) : Msg ⊕ Item :=
  match fields t with
  | tokName :: tokQty :: tokPrice :: _ =>
    if (trim tokName).length = 0 ∨ MAX_NAME_LEN ≤ (trim tokName).length then
      .inl (.badName lineno)
    else
      match parseIntTok (trim tokQty) with
      | none => .inl (.badQty lineno)
      | some q =>
        if q < 0 ∨ 1000000 < q then .inl (.badQty lineno)
        else
          match strtodFull (trim tokPrice) with
          | none => .inl (.badPrice lineno)
          | some p =>
            if p < 0 ∨ 1000000000 < p then .inl (.badPrice lineno)
            else if (find_item items (trim tokName)).isSome then
              .inl (.dup lineno)
            else .inr ⟨trim tokName, q, p⟩
  | _ => .inl (.malformed lineno)

/-- The read loop of `load_inventory` (inventory.c lines 93-159) over the
list of lines `fgets` yields.  `lineno` counts lines already consumed.
Blank and `#` lines are skipped silently; reaching `MAX_ITEMS` on a
candidate line emits one capacity warning and stops (the C `break`). -/
def loadLines (items : List Item) (msgs : List Msg) (lineno : Nat) :
    List (List Char) → List Item × List Msg
  | [] => (items, msgs)
  | l :: ls =>
    if (trim l).isEmpty ∨ (trim l).head? = some '#' then
      loadLines items msgs (lineno + 1) ls
    else if MAX_ITEMS ≤ items.length then (items, msgs ++ [Msg.capacity])
    else
      match loadStep items (lineno + 1) (trim l) with
      | .inl m => loadLines items (msgs ++ [m]) (lineno + 1) ls
      | .inr it => loadLines (items ++ [it]) msgs (lineno + 1) ls

/-- `load_inventory` (inventory.c lines 76-164).  `none` models `fopen`
failing with `ENOENT`: the function prints an informational note and returns
`true` WITHOUT touching `g_items`/`g_count`, so the previous store survives;
`some lines` models a readable file: `g_count = 0` and the read loop run on
its lines, returning `true`.  (A non-`ENOENT` open failure returns `false`
without touching the store; no claim involves it, and it is not modelled.)
The result is (store, diagnostics, returned flag). -/
def load_inventory (prev : List Item) (file : Option (List (List Char))) :
    List Item × List Msg × Bool :=
  match file with
  | none => (prev, [Msg.infoMissing], true)
  | some ls => ((loadLines [] [] 0 ls).1, (loadLines [] [] 0 ls).2, true)

/-- The header comment `save_inventory` writes (inventory.c line 179). -/
def headerLine : List Char :=
  ('#' :: " Retail Inventory - format: name,quantity,price".toList)

/-- One `name,quantity,price` line of `save_inventory` (inventory.c
lines 180-184): `printf "%s,%d,%.2f"`. -/
def itemLine (it : Item) : List Char :=
  it.name ++ ',' :: intChars it.quantity ++ ',' :: fmt2 it.price

/-- `save_inventory` (inventory.c lines 171-189) on the success path: the
exact lines written to the file, a header comment followed by one line per
item.  (A failing `fopen` returns `false` and writes nothing; no claim
under study involves it.) -/
def saveLines (items : List Item) : List (List Char) :=
  headerLine :: items.map itemLine

/-- Store states reachable from the empty store through the core operations
(each `.2`/`.1` projection covers success and failure uniformly, a failing
call leaving the store unchanged, exactly as in the C code). -/
inductive Reach : List Item → Prop
  | init : Reach []
  | add (s : List Item) (name : List Char) (qty : Int) (price : ℚ) :
      Reach s → Reach (add_item s name qty price).2
  | remove (s : List Item) (name : List Char) :
      Reach s → Reach (remove_item s name).2
  | update (s : List Item) (name : List Char) (q : Int) :
      Reach s → Reach (update_quantity s name q).2
  | load (s : List Item) (file : Option (List (List Char))) :
      Reach s → Reach (load_inventory s file).1

/-- At most one item per case-insensitive name: the lowered names are
pairwise distinct. -/
def UniqueNames (s : List Item) : Prop :=
  (s.map fun it => lowerStr it.name).Nodup

example : (add_item [] ['X'] 5 1).2 = [⟨['X'], 5, 1⟩] := by decide
example : (add_item [⟨['X'], 5, 1⟩] ['x'] 3 2).2 = [⟨['X'], 8, 2⟩] := by decide
example : (add_item [⟨['X'], 5, 1⟩] ['x'] 0 2) = (false, [⟨['X'], 5, 1⟩]) := by
  decide
example : remove_item [⟨['A'], 1, 1⟩, ⟨['B'], 2, 1⟩] ['a'] =
    (true, [⟨['B'], 2, 1⟩]) := by decide
example :
    loadLines [] [] 0 [['#', 'c'], [], ['A', ',', '2', ',', '.', '5']] =
      ([⟨['A'], 2, mkRat 1 2⟩], []) := by decide
example :
    loadLines [] [] 0 [['A', ',', '2']] = ([], [Msg.malformed 1]) := by decide
example : saveLines [⟨['A'], 2, 1⟩] =
    [headerLine, ['A', ',', '2', ',', '1', '.', '0', '0']] := by decide

/-- Every stored name is nonempty and shorter than `MAX_NAME_LEN` (what the
name validation of `add_item` and `load_inventory` enforce). -/
def NamesOK (s : List Item) : Prop :=
  ∀ it ∈ s, it.name.length ≠ 0 ∧ it.name.length < MAX_NAME_LEN

lemma find_item_eq_none {s : List Item} {name : List Char} :
    find_item s name = none ↔ ∀ it ∈ s, lowerStr it.name ≠ lowerStr name := by
  induction s with
  | nil => simp [find_item]
  | cons a rest ih =>
    by_cases h : lowerStr a.name = lowerStr name
    · simp [find_item, h]
    · simp [find_item, h, ih]

lemma find_item_some {s : List Item} {name : List Char} {i : Nat}
    (h : find_item s name = some i) :
    ∃ it, s.get? i = some it ∧ lowerStr it.name = lowerStr name := by
  induction s generalizing i with
  | nil => simp [find_item] at h
  | cons a rest ih =>
    unfold find_item at h
    by_cases hm : lowerStr a.name = lowerStr name
    · rw [if_pos hm] at h
      cases h
      exact ⟨a, rfl, hm⟩
    · rw [if_neg hm] at h
      cases hi : find_item rest name with
      | none => rw [hi] at h; simp at h
      | some j =>
        rw [hi] at h
        simp only [Option.map_some'] at h
        cases h
        obtain ⟨it, hg, hl⟩ := ih hi
        exact ⟨it, by simpa using hg, hl⟩

lemma find_item_lt_length {s : List Item} {name : List Char} {i : Nat}
    (h : find_item s name = some i) : i < s.length := by
  obtain ⟨it, hg, -⟩ := find_item_some h
  exact List.get?_eq_some.mp hg |>.1

lemma name_ok_of_find {s : List Item} {name : List Char} {i : Nat}
    (hok : NamesOK s) (h : find_item s name = some i) :
    name.length ≠ 0 ∧ name.length < MAX_NAME_LEN := by
  obtain ⟨it, hg, hl⟩ := find_item_some h
  have hmem : it ∈ s := List.get?_mem hg
  have hlen : it.name.length = name.length := by
    have := congrArg List.length hl
    simpa [lowerStr] using this
  have := hok it hmem
  omega

lemma length_modifyAt (s : List Item) (i : Nat) (f : Item → Item) :
    (modifyAt s i f).length = s.length := by
  induction s generalizing i with
  | nil => rfl
  | cons a rest ih =>
    cases i with
    | zero => rfl
    | succ n => simpa [modifyAt] using ih n

lemma map_modifyAt {g : Item → α} (s : List Item) (i : Nat) (f : Item → Item)
    (h : ∀ it, g (f it) = g it) :
    (modifyAt s i f).map g = s.map g := by
  induction s generalizing i with
  | nil => rfl
  | cons a rest ih =>
    cases i with
    | zero => simp [modifyAt, h]
    | succ n => simp [modifyAt, ih n]

lemma forall_modifyAt {P : Item → Prop} (s : List Item) (i : Nat)
    (f : Item → Item) (hall : ∀ it ∈ s, P it)
    (hf : ∀ it ∈ s, P it → P (f it)) :
    ∀ it ∈ modifyAt s i f, P it := by
  induction s generalizing i with
  | nil => simp [modifyAt]
  | cons a rest ih =>
    cases i with
    | zero =>
      intro it hit
      simp only [modifyAt, List.mem_cons] at hit
      rcases hit with heq | hit
      · exact heq ▸ hf a (by simp) (hall a (by simp))
      · exact hall it (by simp [hit])
    | succ n =>
      intro it hit
      simp only [modifyAt, List.mem_cons] at hit
      rcases hit with heq | hit
      · exact hall it (by simp [heq])
      · exact ih n (fun x hx => hall x (by simp [hx]))
          (fun x hx => hf x (by simp [hx])) it hit

lemma map_eraseIdx {g : Item → α} (s : List Item) (i : Nat) :
    (s.eraseIdx i).map g = (s.map g).eraseIdx i := by
  induction s generalizing i with
  | nil => rfl
  | cons a rest ih =>
    cases i with
    | zero => rfl
    | succ n => simp [List.eraseIdx, ih n]

lemma add_item_rejected {s : List Item} {name : List Char} {qty : Int}
    {price : ℚ}
    (h : name.length = 0 ∨ MAX_NAME_LEN ≤ name.length ∨ qty ≤ 0 ∨ price < 0) :
    add_item s name qty price = (false, s) := by
  unfold add_item
  rcases h with h | h | h | h
  · rw [if_pos (Or.inl h)]
  · rw [if_pos (Or.inr h)]
  · by_cases h1 : name.length = 0 ∨ MAX_NAME_LEN ≤ name.length
    · rw [if_pos h1]
    · rw [if_neg h1, if_pos h]
  · by_cases h1 : name.length = 0 ∨ MAX_NAME_LEN ≤ name.length
    · rw [if_pos h1]
    · by_cases h2 : qty ≤ 0
      · rw [if_neg h1, if_pos h2]
      · rw [if_neg h1, if_neg h2, if_pos h]

lemma add_item_restock {s : List Item} {name : List Char} {qty : Int}
    {price : ℚ} {i : Nat}
    (h1 : ¬ (name.length = 0 ∨ MAX_NAME_LEN ≤ name.length))
    (hq : 0 < qty) (hp : 0 ≤ price) (hf : find_item s name = some i) :
    add_item s name qty price =
      (true, modifyAt s i fun it =>
        { it with quantity := it.quantity + qty, price := price }) := by
  unfold add_item
  rw [if_neg h1, if_neg (not_le.mpr hq), if_neg (not_lt.mpr hp), hf]

lemma add_item_append {s : List Item} {name : List Char} {qty : Int}
    {price : ℚ}
    (h1 : ¬ (name.length = 0 ∨ MAX_NAME_LEN ≤ name.length))
    (hq : 0 < qty) (hp : 0 ≤ price) (hf : find_item s name = none)
    (hcap : s.length < MAX_ITEMS) :
    add_item s name qty price = (true, s ++ [⟨name, qty, price⟩]) := by
  unfold add_item
  rw [if_neg h1, if_neg (not_le.mpr hq), if_neg (not_lt.mpr hp), hf]
  exact if_neg (not_le.mpr hcap)

lemma add_item_full {s : List Item} {name : List Char} {qty : Int} {price : ℚ}
    (h1 : ¬ (name.length = 0 ∨ MAX_NAME_LEN ≤ name.length))
    (hq : 0 < qty) (hp : 0 ≤ price) (hf : find_item s name = none)
    (hcap : MAX_ITEMS ≤ s.length) :
    add_item s name qty price = (false, s) := by
  unfold add_item
  rw [if_neg h1, if_neg (not_le.mpr hq), if_neg (not_lt.mpr hp), hf]
  exact if_pos hcap

/-- The state invariant every reachable store satisfies: pairwise-distinct
case-insensitive names, validated name lengths, nonnegative quantities, and
at most `MAX_ITEMS` entries. -/
def StoreInv (s : List Item) : Prop :=
  UniqueNames s ∧ NamesOK s ∧ (∀ it ∈ s, 0 ≤ it.quantity) ∧
    s.length ≤ MAX_ITEMS

lemma inv_modifyAt {s : List Item} {i : Nat} {f : Item → Item}
    (hinv : StoreInv s) (hname : ∀ it, (f it).name = it.name)
    (hq : ∀ it ∈ s, 0 ≤ it.quantity → 0 ≤ (f it).quantity) :
    StoreInv (modifyAt s i f) := by
  obtain ⟨h1, h2, h3, h4⟩ := hinv
  refine ⟨?_, ?_, ?_, ?_⟩
  · unfold UniqueNames at h1 ⊢
    rwa [map_modifyAt s i f (fun it => by rw [hname])]
  · exact forall_modifyAt
      (P := fun it => it.name.length ≠ 0 ∧ it.name.length < MAX_NAME_LEN)
      s i f h2 (fun x _ hx => by simpa [hname x] using hx)
  · exact forall_modifyAt (P := fun it => 0 ≤ it.quantity) s i f h3 hq
  · rw [length_modifyAt]; exact h4

lemma inv_add {s : List Item} (name : List Char) (qty : Int) (price : ℚ)
    (hinv : StoreInv s) : StoreInv (add_item s name qty price).2 := by
  by_cases h1 : name.length = 0 ∨ MAX_NAME_LEN ≤ name.length
  · rw [add_item_rejected (h1.imp id Or.inl)]
    exact hinv
  by_cases h2 : qty ≤ 0
  · rw [add_item_rejected (Or.inr (Or.inr (Or.inl h2)))]
    exact hinv
  by_cases h3 : price < 0
  · rw [add_item_rejected (Or.inr (Or.inr (Or.inr h3)))]
    exact hinv
  cases hf : find_item s name with
  | some i =>
    rw [add_item_restock h1 (by omega) (not_lt.mp h3) hf]
    exact inv_modifyAt hinv (fun it => rfl) (fun it _ h0 => by simp only; omega)
  | none =>
    by_cases hcap : MAX_ITEMS ≤ s.length
    · rw [add_item_full h1 (by omega) (not_lt.mp h3) hf hcap]
      exact hinv
    · rw [add_item_append h1 (by omega) (not_lt.mp h3) hf (by omega)]
      obtain ⟨u1, u2, u3, u4⟩ := hinv
      refine ⟨?_, ?_, ?_, ?_⟩
      · unfold UniqueNames at u1 ⊢
        rw [List.map_append, List.nodup_append]
        refine ⟨u1, by simp, ?_⟩
        intro x hx
        simp only [List.map_cons, List.map_nil, List.mem_singleton]
        intro hxe
        rw [List.mem_map] at hx
        obtain ⟨it, hit, hlow⟩ := hx
        exact (find_item_eq_none.mp hf it hit) (by rw [hlow, hxe])
      · intro it hit
        rcases List.mem_append.mp hit with h | h
        · exact u2 it h
        · simp only [List.mem_singleton] at h
          subst h
          simp only at h1 ⊢
          omega
      · intro it hit
        rcases List.mem_append.mp hit with h | h
        · exact u3 it h
        · simp only [List.mem_singleton] at h
          subst h
          simp only
          omega
      · rw [List.length_append]
        simp only [List.length_singleton]
        omega

lemma inv_remove {s : List Item} (name : List Char) (hinv : StoreInv s) :
    StoreInv (remove_item s name).2 := by
  unfold remove_item
  cases hf : find_item s name with
  | none => exact hinv
  | some i =>
    obtain ⟨u1, u2, u3, u4⟩ := hinv
    refine ⟨?_, ?_, ?_, ?_⟩
    · unfold UniqueNames at u1 ⊢
      rw [map_eraseIdx]
      exact u1.sublist (List.eraseIdx_sublist _ i)
    · exact fun it hit => u2 it ((List.eraseIdx_sublist s i).mem hit)
    · exact fun it hit => u3 it ((List.eraseIdx_sublist s i).mem hit)
    · calc (s.eraseIdx i).length ≤ s.length :=
            List.Sublist.length_le (List.eraseIdx_sublist s i)
        _ ≤ MAX_ITEMS := u4

lemma inv_update {s : List Item} (name : List Char) (q : Int)
    (hinv : StoreInv s) : StoreInv (update_quantity s name q).2 := by
  unfold update_quantity
  split_ifs with h1
  · exact hinv
  · cases hf : find_item s name with
    | none => exact hinv
    | some i =>
      simp only
      exact inv_modifyAt hinv (fun it => rfl)
        (fun it _ _ => by simp only; omega)

lemma loadStep_inr {items : List Item} {n : Nat} {t : List Char} {it : Item}
    (h : loadStep items n t = .inr it) :
    it.name.length ≠ 0 ∧ it.name.length < MAX_NAME_LEN ∧
      0 ≤ it.quantity ∧ it.quantity ≤ 1000000 ∧
      0 ≤ it.price ∧ it.price ≤ 1000000000 ∧
      find_item items it.name = none ∧ 3 ≤ (fields t).length := by
  rcases hfld : fields t with _ | ⟨a, rest1⟩
  · simp [loadStep, hfld] at h
  rcases rest1 with _ | ⟨b, rest2⟩
  · simp [loadStep, hfld] at h
  rcases rest2 with _ | ⟨c, r⟩
  · simp [loadStep, hfld] at h
  simp only [loadStep, hfld] at h
  by_cases hn : (trim a).length = 0 ∨ MAX_NAME_LEN ≤ (trim a).length
  · rw [if_pos hn] at h
    simp at h
  rw [if_neg hn] at h
  cases hq : parseIntTok (trim b) with
  | none => simp [hq] at h
  | some q =>
    simp only [hq] at h
    by_cases hqr : q < 0 ∨ 1000000 < q
    · rw [if_pos hqr] at h
      simp at h
    rw [if_neg hqr] at h
    cases hp : strtodFull (trim c) with
    | none => simp [hp] at h
    | some p =>
      simp only [hp] at h
      by_cases hpr : p < 0 ∨ 1000000000 < p
      · rw [if_pos hpr] at h
        simp at h
      rw [if_neg hpr] at h
      by_cases hdup : (find_item items (trim a)).isSome
      · rw [if_pos hdup] at h
        simp at h
      rw [if_neg hdup] at h
      simp only [Sum.inr.injEq] at h
      subst h
      push_neg at hn hqr hpr
      dsimp only
      refine ⟨hn.1, hn.2, by omega, by omega, ?_, ?_, ?_, by simp⟩
      · exact hpr.1
      · exact hpr.2
      · exact Option.not_isSome_iff_eq_none.mp hdup

lemma inv_append {s : List Item} {it : Item} (hinv : StoreInv s)
    (hn1 : it.name.length ≠ 0) (hn2 : it.name.length < MAX_NAME_LEN)
    (hq : 0 ≤ it.quantity) (hf : find_item s it.name = none)
    (hcap : s.length < MAX_ITEMS) : StoreInv (s ++ [it]) := by
  obtain ⟨u1, u2, u3, u4⟩ := hinv
  refine ⟨?_, ?_, ?_, ?_⟩
  · unfold UniqueNames at u1 ⊢
    rw [List.map_append, List.nodup_append]
    refine ⟨u1, by simp, ?_⟩
    intro x hx
    simp only [List.map_cons, List.map_nil, List.mem_singleton]
    intro hxe
    rw [List.mem_map] at hx
    obtain ⟨a, ha, hlow⟩ := hx
    exact (find_item_eq_none.mp hf a ha) (by rw [hlow, hxe])
  · intro x hx
    rcases List.mem_append.mp hx with hm | hm
    · exact u2 x hm
    · simp only [List.mem_singleton] at hm
      subst hm
      exact ⟨hn1, hn2⟩
  · intro x hx
    rcases List.mem_append.mp hx with hm | hm
    · exact u3 x hm
    · simp only [List.mem_singleton] at hm
      subst hm
      exact hq
  · rw [List.length_append]
    simp only [List.length_singleton]
    omega

lemma loadLines_inv (ls : List (List Char)) :
    ∀ items msgs n, StoreInv items → StoreInv (loadLines items msgs n ls).1 := by
  induction ls with
  | nil => exact fun items msgs n h => h
  | cons l rest ih =>
    intro items msgs n h
    unfold loadLines
    split_ifs with hb hc
    · exact ih _ _ _ h
    · exact h
    · cases hs : loadStep items (n + 1) (trim l) with
      | inl m => exact ih _ _ _ h
      | inr it =>
        apply ih
        obtain ⟨b1, b2, b3, _, _, _, b7, _⟩ := loadStep_inr hs
        exact inv_append h b1 b2 b3 b7 (by omega)

lemma load_inv {prev : List Item} (file : Option (List (List Char)))
    (hinv : StoreInv prev) : StoreInv (load_inventory prev file).1 := by
  cases file with
  | none => exact hinv
  | some ls =>
    exact loadLines_inv ls [] [] 0
      ⟨by simp [UniqueNames], by simp [NamesOK], by simp, by simp [MAX_ITEMS]⟩

lemma reach_inv {s : List Item} (h : Reach s) : StoreInv s := by
  induction h with
  | init =>
    exact ⟨by simp [UniqueNames], by simp [NamesOK], by simp, by simp [MAX_ITEMS]⟩
  | add s name qty price _ ih => exact inv_add name qty price ih
  | remove s name _ ih => exact inv_remove name ih
  | update s name q _ ih => exact inv_update name q ih
  | load s file _ ih => exact load_inv file ih

lemma find_item_first {s : List Item} {name : List Char} {i : Nat}
    (hu : UniqueNames s) (hi : i < s.length)
    (hm : lowerStr ((s.get ⟨i, hi⟩).name) = lowerStr name) :
    find_item s name = some i := by
  induction s generalizing i with
  | nil => simp at hi
  | cons a rest ih =>
    unfold UniqueNames at hu
    simp only [List.map_cons, List.nodup_cons] at hu
    cases i with
    | zero =>
      have hm0 : lowerStr a.name = lowerStr name := hm
      unfold find_item
      rw [if_pos hm0]
    | succ n =>
      have hn : n < rest.length := by simpa using hi
      have hget : (a :: rest).get ⟨n + 1, hi⟩ = rest.get ⟨n, hn⟩ := rfl
      rw [hget] at hm
      have hne : lowerStr a.name ≠ lowerStr name := by
        intro hcontra
        apply hu.1
        have hmem := List.mem_map_of_mem (fun it => lowerStr it.name)
          (List.get_mem rest n hn)
        dsimp only at hmem
        rw [hm] at hmem
        rw [hcontra]
        exact hmem
      unfold find_item
      rw [if_neg hne, ih hu.2 hn hm]
      rfl

/-- One unfolding step of the read loop on a cons cell (stated as an
equation so that rewriting does not unfold the recursive calls). -/
lemma loadLines_cons (items : List Item) (msgs : List Msg) (lineno : Nat)
    (l : List Char) (ls : List (List Char)) :
    loadLines items msgs lineno (l :: ls) =
      if (trim l).isEmpty ∨ (trim l).head? = some '#' then
        loadLines items msgs (lineno + 1) ls
      else if MAX_ITEMS ≤ items.length then (items, msgs ++ [Msg.capacity])
      else
        match loadStep items (lineno + 1) (trim l) with
        | .inl m => loadLines items (msgs ++ [m]) (lineno + 1) ls
        | .inr it => loadLines (items ++ [it]) msgs (lineno + 1) ls := rfl

lemma loadStep_malformed {items : List Item} {n : Nat} {t : List Char}
    (h : (fields t).length < 3) :
    loadStep items n t = .inl (.malformed n) := by
  rcases hfld : fields t with _ | ⟨a, _ | ⟨b, _ | ⟨c, r⟩⟩⟩
  · simp [loadStep, hfld]
  · simp [loadStep, hfld]
  · simp [loadStep, hfld]
  · rw [hfld] at h
    simp only [List.length_cons] at h
    omega

lemma loadLines_length_le (ls : List (List Char)) :
    ∀ items msgs n, items.length ≤ MAX_ITEMS →
      ((loadLines items msgs n ls).1).length ≤ MAX_ITEMS := by
  induction ls with
  | nil => exact fun items msgs n h => h
  | cons l rest ih =>
    intro items msgs n h
    unfold loadLines
    split_ifs with hb hc
    · exact ih _ _ _ h
    · exact h
    · cases hs : loadStep items (n + 1) (trim l) with
      | inl m => exact ih _ _ _ h
      | inr it =>
        apply ih
        rw [List.length_append]
        simp only [List.length_singleton]
        omega

/-- C2 (confirmed): starting from the empty store, any sequence of Add,
Remove, SetQuantity and Load operations maintains at most one item per
case-insensitive name: the lowered names are pairwise distinct, equivalently
two positions holding case-insensitively equal names coincide. -/
theorem claim_C2_unique_names {s : List Item} (h : Reach s) :
    UniqueNames s ∧
      ∀ i j (hi : i < s.length) (hj : j < s.length),
        lowerStr ((s.get ⟨i, hi⟩).name) = lowerStr ((s.get ⟨j, hj⟩).name) →
          i = j := by
  have hu := (reach_inv h).1
  refine ⟨hu, fun i j hi hj he => ?_⟩
  unfold UniqueNames at hu
  have hij := (List.Nodup.get_inj_iff hu
    (i := ⟨i, by simpa using hi⟩) (j := ⟨j, by simpa using hj⟩)).mp ?hget
  · simpa using congrArg Fin.val hij
  case hget =>
    simp only [List.get_eq_getElem, List.getElem_map]
    simpa [List.get_eq_getElem] using he

/-- C2 witness: the theorem applied to the concrete reachable store obtained
by two Add calls. -/
theorem claim_C2_unique_names_witness :
    UniqueNames ((add_item (add_item [] ['X'] 5 1).2 ['Y'] 2 1).2) :=
  (claim_C2_unique_names
    (Reach.add _ ['Y'] 2 1 (Reach.add _ ['X'] 5 1 Reach.init))).1

/-- C3 counterexample: the reachable store obtained by `Add("X",600000,1.0)`
twice (both calls pass every validation, and both quantities lie inside
[0, 1000000]) holds an item with quantity 1200000 > 1000000: `add_item`
accumulates quantities on restock with no upper-bound check, so the claimed
invariant `quantity ≤ 1_000_000` fails on a reachable state after a
successful Add. -/
theorem claim_C3_counterexample :
    Reach ((add_item (add_item [] ['X'] 600000 1).2 ['X'] 600000 1).2) ∧
      (add_item (add_item [] ['X'] 600000 1).2 ['X'] 600000 1) =
        (true, [⟨['X'], 1200000, 1⟩]) ∧
      ¬ ((1200000 : Int) ≤ 1000000) :=
  ⟨Reach.add _ ['X'] 600000 1 (Reach.add _ ['X'] 600000 1 Reach.init),
    by decide, by decide⟩

/-- C3 (corrected): the lower bound holds — every reachable store state has
only nonnegative quantities (Add requires a positive amount, SetQuantity a
nonnegative one, Load only accepts quantities in [0, 1000000]) — but the
claimed upper bound 1_000_000 is not an invariant: Add on an existing item
accumulates with no upper check (see the counterexample). -/
theorem claim_C3_quantity_nonneg {s : List Item} (h : Reach s) :
    ∀ it ∈ s, 0 ≤ it.quantity :=
  (reach_inv h).2.2.1

/-- C3 witness: the nonnegativity theorem applied to a concrete reachable
one-item store. -/
theorem claim_C3_quantity_nonneg_witness :
    (0 : Int) ≤ (Item.mk ['X'] 5 1).quantity :=
  claim_C3_quantity_nonneg (Reach.add [] ['X'] 5 1 Reach.init) ⟨['X'], 5, 1⟩
    (by decide)

/-- C9 counterexample: `load_inventory` on a missing file returns early
without clearing the store (the `errno == ENOENT` branch never resets
`g_count`), so from a reachable nonempty store the resulting inventory is
that same nonempty store, not the empty one the claim states for every store
state. -/
theorem claim_C9_counterexample :
    Reach ((add_item [] ['X'] 5 1).2) ∧
      (load_inventory ((add_item [] ['X'] 5 1).2) none).1 = [⟨['X'], 5, 1⟩] ∧
      ([⟨['X'], 5, 1⟩] : List Item) ≠ [] :=
  ⟨Reach.add [] ['X'] 5 1 Reach.init, by decide, by decide⟩

/-- C9 (corrected): Load against a nonexistent path succeeds (returns true),
emits exactly the informational note, and leaves the in-memory store
unchanged; at its only call site the store is still empty, so there the
result is the empty inventory the claim describes. -/
theorem claim_C9_missing_file (prev : List Item) :
    load_inventory prev none = (prev, [Msg.infoMissing], true) := rfl

/-- C8 (confirmed): `Add` with quantity 0 fails (the `qty <= 0` check fires
before anything is touched) leaving the store unchanged, for every store,
name and price; `SetQuantity` with 0 on an existing name succeeds, setting
that item's stock to exactly zero in place — same number of entries, no
deletion. -/
theorem claim_C8_zero_boundary :
    (∀ (s : List Item) (name : List Char) (price : ℚ),
        add_item s name 0 price = (false, s)) ∧
      (∀ (s : List Item) (name : List Char) (i : Nat),
          find_item s name = some i →
          update_quantity s name 0 =
              (true, modifyAt s i fun it => { it with quantity := 0 }) ∧
            (modifyAt s i fun it => { it with quantity := 0 }).length =
              s.length) := by
  constructor
  · intro s name price
    exact add_item_rejected (Or.inr (Or.inr (Or.inl (by omega))))
  · intro s name i hf
    constructor
    · unfold update_quantity
      rw [if_neg (by omega), hf]
    · exact length_modifyAt s i _

/-- C8 witness: the theorem applied to a concrete one-item store: Add with
quantity 0 fails and leaves the store as it was; SetQuantity 0 (through the
case-insensitive name) zeroes the stock without removing the entry. -/
theorem claim_C8_zero_boundary_witness :
    add_item [⟨['X'], 5, 1⟩] ['X'] 0 2 = (false, [⟨['X'], 5, 1⟩]) ∧
      update_quantity [⟨['X'], 5, 1⟩] ['x'] 0 = (true, [⟨['X'], 0, 1⟩]) := by
  constructor
  · exact claim_C8_zero_boundary.1 [⟨['X'], 5, 1⟩] ['X'] 2
  · have h := (claim_C8_zero_boundary.2 [⟨['X'], 5, 1⟩] ['x'] 0 (by decide)).1
    rw [h]
    decide

/-- C1 counterexample: `add_item` validates before looking the name up, so a
call with quantity 0 on a store that DOES hold a case-insensitive match
fails instead of succeeding as the claim states for every call. -/
theorem claim_C1_counterexample :
    find_item [⟨['X'], 5, 1⟩] ['x'] = some 0 ∧
      add_item [⟨['X'], 5, 1⟩] ['x'] 0 7 = (false, [⟨['X'], 5, 1⟩]) :=
  ⟨by decide, by decide⟩

/-- C1 (corrected): restricted to calls that pass `add_item`'s validation
(quantity > 0, price ≥ 0; stored names are valid as in every reachable
store, which makes the matched name pass the length check), Add on an
existing case-insensitive match succeeds, adds the amount to that item's
quantity and overwrites its price with the given value. -/
theorem claim_C1_restock {s : List Item} {name : List Char} {q : Int} {p : ℚ}
    {i : Nat} (hok : NamesOK s) (hf : find_item s name = some i)
    (hq : 0 < q) (hp : 0 ≤ p) :
    add_item s name q p =
      (true, modifyAt s i fun it =>
        { it with quantity := it.quantity + q, price := p }) := by
  have hn := name_ok_of_find hok hf
  refine add_item_restock ?_ hq hp hf
  have h1 := hn.1
  have h2 := hn.2
  omega

/-- C1 witness: the spec's own example — Add("X",5,1.0) on a store without
"X" then Add("X",3,2.0) yields the item with quantity 8 and price 2.0; the
second step is the theorem applied at that store. -/
theorem claim_C1_restock_witness :
    add_item [] ['X'] 5 1 = (true, [⟨['X'], 5, 1⟩]) ∧
      add_item [⟨['X'], 5, 1⟩] ['X'] 3 2 = (true, [⟨['X'], 8, 2⟩]) := by
  constructor
  · decide
  · have h := @claim_C1_restock [⟨['X'], 5, 1⟩] ['X'] 3 2 0
      (by unfold NamesOK; decide) (by decide) (by decide) (by decide)
    rw [h]
    decide

/-- C10 (confirmed): with the store exactly at the capacity bound of 500
entries, Add on a name that case-insensitively matches an existing item
(with validation-passing arguments; stored names valid, as in every
reachable store) still succeeds and restocks that item: the `g_count >=
MAX_ITEMS` test sits after the `find_item` restock branch, so the capacity
check applies only when a new entry would be appended. -/
theorem claim_C10_restock_at_capacity {s : List Item} {name : List Char}
    {q : Int} {p : ℚ} {i : Nat} (hok : NamesOK s)
    (_hlen : s.length = MAX_ITEMS) (hf : find_item s name = some i)
    (hq : 0 < q) (hp : 0 ≤ p) :
    (add_item s name q p).1 = true ∧
      add_item s name q p =
        (true, modifyAt s i fun it =>
          { it with quantity := it.quantity + q, price := p }) := by
  have hn := name_ok_of_find hok hf
  have heq : add_item s name q p =
      (true, modifyAt s i fun it =>
        { it with quantity := it.quantity + q, price := p }) := by
    refine add_item_restock ?_ hq hp hf
    have h1 := hn.1
    have h2 := hn.2
    omega
  exact ⟨by rw [heq], heq⟩

set_option maxRecDepth 20000 in
/-- C10 witness: the theorem applied to a concrete 500-item store (at the
capacity bound); the restock of the first item succeeds. -/
theorem claim_C10_restock_at_capacity_witness :
    add_item (List.replicate 500 ⟨['A'], 1, 1⟩) ['a'] 3 2 =
      (true, ⟨['A'], 4, 2⟩ :: List.replicate 499 ⟨['A'], 1, 1⟩) := by
  have h := (@claim_C10_restock_at_capacity (List.replicate 500 ⟨['A'], 1, 1⟩)
    ['a'] 3 2 0 (by unfold NamesOK; decide) (by decide) (by decide)
    (by decide) (by decide)).2
  rw [h]
  decide

/-- C4 (confirmed): on a store satisfying the uniqueness invariant (which
every reachable store does, claim C2), removing a name that
case-insensitively matches the item at position i succeeds and yields
`take i ++ drop (i+1)` — each successor shifted left one place, all other
items untouched; removing a name with no case-insensitive match fails and
leaves the store unchanged. -/
theorem claim_C4_remove (s : List Item) (name : List Char) :
    (∀ i (hi : i < s.length), UniqueNames s →
        lowerStr ((s.get ⟨i, hi⟩).name) = lowerStr name →
        remove_item s name = (true, s.take i ++ s.drop (i + 1))) ∧
      ((∀ it ∈ s, lowerStr it.name ≠ lowerStr name) →
        remove_item s name = (false, s)) := by
  constructor
  · intro i hi hu hm
    unfold remove_item
    simp only [find_item_first hu hi hm]
    rw [List.eraseIdx_eq_take_drop_succ]
  · intro hnone
    unfold remove_item
    simp only [find_item_eq_none.mpr hnone]

/-- C4 witness: the theorem applied to the concrete store [A,B,C]: removing
"b" (case-insensitive match at position 1) yields [A,C]; removing the
unmatched "z" fails and leaves [A,B,C] unchanged. -/
theorem claim_C4_remove_witness :
    remove_item [⟨['A'], 1, 1⟩, ⟨['B'], 2, 1⟩, ⟨['C'], 3, 1⟩] ['b'] =
        (true, [⟨['A'], 1, 1⟩, ⟨['C'], 3, 1⟩]) ∧
      remove_item [⟨['A'], 1, 1⟩, ⟨['B'], 2, 1⟩, ⟨['C'], 3, 1⟩] ['z'] =
        (false, [⟨['A'], 1, 1⟩, ⟨['B'], 2, 1⟩, ⟨['C'], 3, 1⟩]) := by
  constructor
  · have h := (claim_C4_remove [⟨['A'], 1, 1⟩, ⟨['B'], 2, 1⟩, ⟨['C'], 3, 1⟩]
      ['b']).1 1 (by decide) (by unfold UniqueNames; decide) (by decide)
    rw [h]
    decide
  · exact (claim_C4_remove [⟨['A'], 1, 1⟩, ⟨['B'], 2, 1⟩, ⟨['C'], 3, 1⟩]
      ['z']).2 (by decide)

/-- C6 counterexample: the line "A,2,.5,x" splits into FOUR nonempty
comma-separated fields, yet load does not skip it: `strtok` is called
exactly three times, the fourth field is silently ignored, and the line
loads as the item (A, 2, 0.5) with no warning — contradicting the claim
that every line not splitting into exactly three fields is skipped with a
warning and contributes no item. -/
theorem claim_C6_counterexample :
    (fields (trim ['A', ',', '2', ',', '.', '5', ',', 'x'])).length = 4 ∧
      loadLines [] [] 0 [['A', ',', '2', ',', '.', '5', ',', 'x']] =
        ([⟨['A'], 2, mkRat 1 2⟩], []) :=
  ⟨by decide, by decide⟩

/-- C6 (corrected): a candidate line that yields FEWER than three nonempty
comma-separated fields is skipped with a malformed-record warning carrying
its line number, and loading continues with the next line; conversely every
line committed as an item yielded at least three nonempty fields — but a
line may also yield more than three, in which case the fields beyond the
third are ignored rather than the line being skipped (and empty fields
between consecutive commas are dropped before counting, as `strtok`
does). -/
theorem claim_C6_malformed :
    (∀ (items : List Item) (msgs : List Msg) (lineno : Nat) (l : List Char)
        (ls : List (List Char)),
        ¬ (trim l).isEmpty = true → (trim l).head? ≠ some '#' →
        items.length < MAX_ITEMS → (fields (trim l)).length < 3 →
        loadLines items msgs lineno (l :: ls) =
          loadLines items (msgs ++ [Msg.malformed (lineno + 1)])
            (lineno + 1) ls) ∧
      (∀ (items : List Item) (lineno : Nat) (t : List Char) (it : Item),
          loadStep items lineno t = .inr it → 3 ≤ (fields t).length) := by
  constructor
  · intro items msgs lineno l ls hne hhash hcap hfew
    rw [loadLines_cons, if_neg (by simp [hne, hhash]), if_neg (by omega),
      loadStep_malformed hfew]
  · intro items lineno t it h
    exact (loadStep_inr h).2.2.2.2.2.2.2

/-- C6 witness: the theorem applied to the concrete malformed line "A,2"
(two fields): one malformed warning naming line 1, no item, load continues
and terminates; and to a concrete committed item, whose line had three
fields. -/
theorem claim_C6_malformed_witness :
    loadLines [] [] 0 [['A', ',', '2']] = ([], [Msg.malformed 1]) ∧
      3 ≤ (fields ['A', ',', '2', ',', '.', '5']).length := by
  constructor
  · have h := claim_C6_malformed.1 [] [] 0 ['A', ',', '2'] []
      (by decide) (by decide) (by decide) (by decide)
    rw [h]
    decide
  · exact claim_C6_malformed.2 [] 0 ['A', ',', '2', ',', '.', '5']
      ⟨['A'], 2, mkRat 1 2⟩ (by decide)

/-- C7 (confirmed): the loaded store never exceeds 500 records, and the
moment a candidate (non-blank, non-comment) line is met with the store
already at the bound, load emits exactly one capacity warning, ignores that
line and ALL remaining lines (the same result for every suffix `ls`), keeps
exactly the already-accepted records, and the surrounding `load_inventory`
still returns success.  The C code reaches this state exactly after
accepting the first 500 valid records of a file that holds more. -/
theorem claim_C7_capacity :
    (∀ (ls : List (List Char)) (items : List Item) (msgs : List Msg)
        (n : Nat), items.length ≤ MAX_ITEMS →
        ((loadLines items msgs n ls).1).length ≤ MAX_ITEMS) ∧
      (∀ (items : List Item) (msgs : List Msg) (n : Nat) (l : List Char)
          (ls : List (List Char)),
          MAX_ITEMS ≤ items.length → ¬ (trim l).isEmpty = true →
          (trim l).head? ≠ some '#' →
          loadLines items msgs n (l :: ls) =
            (items, msgs ++ [Msg.capacity])) := by
  constructor
  · exact fun ls items msgs n h => loadLines_length_le ls items msgs n h
  · intro items msgs n l ls hfull hne hhash
    unfold loadLines
    rw [if_neg (by simp [hne, hhash]), if_pos hfull]

set_option maxRecDepth 20000 in
/-- C7 witness: the theorem applied to a concrete full 500-item store and a
valid candidate line followed by another line: one capacity warning, both
lines ignored, the 500 records kept; plus the length bound applied to a
concrete load. -/
theorem claim_C7_capacity_witness :
    loadLines (List.replicate 500 ⟨['A'], 1, 1⟩) [] 7
        [['B', ',', '1', ',', '2'], ['z']] =
      (List.replicate 500 ⟨['A'], 1, 1⟩, [Msg.capacity]) ∧
      ((loadLines [] [] 0 [['B', ',', '1', ',', '2']]).1).length ≤
        MAX_ITEMS := by
  constructor
  · have h := claim_C7_capacity.2 (List.replicate 500 ⟨['A'], 1, 1⟩) [] 7
      ['B', ',', '1', ',', '2'] [['z']] (by decide) (by decide) (by decide)
    rw [h]
    rfl
  · exact claim_C7_capacity.1 [['B', ',', '1', ',', '2']] [] [] 0 (by decide)

lemma digitChar_facts {d : Nat} (h : d < 10) :
    (digitChar d).isDigit = true ∧ digitVal (digitChar d) = d ∧
      digitChar d ≠ ',' ∧ digitChar d ≠ '.' ∧ isSpc (digitChar d) = false ∧
      digitChar d ≠ '+' ∧ digitChar d ≠ '-' ∧ digitChar d ≠ '#' := by
  revert h
  revert d
  decide

lemma digitsVal_concat (xs : List Char) (c : Char) :
    digitsVal (xs ++ [c]) = 10 * digitsVal xs + digitVal c := by
  unfold digitsVal
  rw [List.foldl_append]
  rfl

lemma natCharsAux_zero (fuel : Nat) : natCharsAux fuel 0 = [] := by
  cases fuel <;> simp [natCharsAux]

lemma natCharsAux_spec :
    ∀ (fuel n : Nat), 1 ≤ n → n ≤ fuel →
      natCharsAux fuel n ≠ [] ∧
        (∀ c ∈ natCharsAux fuel n, c.isDigit = true) ∧
        digitsVal (natCharsAux fuel n) = n := by
  intro fuel
  induction fuel with
  | zero => intro n h1 h2; omega
  | succ f ih =>
    intro n h1 h2
    have hne : n ≠ 0 := by omega
    have hd : n % 10 < 10 := Nat.mod_lt n (by omega)
    obtain ⟨hdig, hval, -, -, -, -, -, -⟩ := digitChar_facts hd
    unfold natCharsAux
    rw [if_neg hne]
    by_cases hq : n / 10 = 0
    · rw [hq, natCharsAux_zero]
      refine ⟨by simp, ?_, ?_⟩
      · intro c hc
        simp only [List.nil_append, List.mem_singleton] at hc
        subst hc
        exact hdig
      · simp only [List.nil_append]
        have : digitsVal [digitChar (n % 10)] = digitVal (digitChar (n % 10)) := by
          unfold digitsVal
          simp [digitVal]
        rw [this, hval]
        omega
    · have hlt : n / 10 ≤ f := by
        have := Nat.div_lt_self (by omega : 0 < n) (by omega : 1 < 10)
        omega
      obtain ⟨ih1, ih2, ih3⟩ := ih (n / 10) (by omega) hlt
      refine ⟨by simp, ?_, ?_⟩
      · intro c hc
        rcases List.mem_append.mp hc with hm | hm
        · exact ih2 c hm
        · simp only [List.mem_singleton] at hm
          subst hm
          exact hdig
      · rw [digitsVal_concat, ih3, hval]
        omega

lemma natChars_spec (n : Nat) :
    natChars n ≠ [] ∧ (∀ c ∈ natChars n, c.isDigit = true) ∧
      digitsVal (natChars n) = n := by
  by_cases h : n = 0
  · subst h
    refine ⟨by decide, ?_, by decide⟩
    intro c hc
    simp [natChars] at hc
    subst hc
    decide
  · unfold natChars
    rw [if_neg h]
    exact natCharsAux_spec n n (by omega) le_rfl

lemma parseIntTok_digits {l : List Char} (hne : l ≠ [])
    (hdig : ∀ c ∈ l, c.isDigit = true) :
    parseIntTok l = some ((digitsVal l : Nat) : Int) := by
  cases l with
  | nil => exact absurd rfl hne
  | cons c ds =>
    have hc : c.isDigit = true := hdig c (by simp)
    have hplus : ¬ c = '+' := by
      intro hcontra
      subst hcontra
      simp at hc
    have hminus : ¬ c = '-' := by
      intro hcontra
      subst hcontra
      simp at hc
    have hall : allDigits (c :: ds) = true := by
      unfold allDigits
      rw [List.all_eq_true]
      intro x hx
      exact hdig x hx
    simp only [parseIntTok]
    rw [if_neg hplus, if_neg hminus, if_pos hall]

lemma dropWhile_cons_false {p : Char → Bool} {a : Char} (l : List Char)
    (h : p a = false) : (a :: l).dropWhile p = a :: l := by
  simp [List.dropWhile, h]

lemma dropWhile_all_false {p : Char → Bool} {l : List Char}
    (h : ∀ c ∈ l, p c = false) : l.dropWhile p = l := by
  cases l with
  | nil => rfl
  | cons a t => exact dropWhile_cons_false t (h a (by simp))

lemma trim_nospace {l : List Char} (h : ∀ c ∈ l, isSpc c = false) :
    trim l = l := by
  unfold trim trimRight
  rw [dropWhile_all_false h,
    dropWhile_all_false (fun c hc => h c (List.mem_reverse.mp hc)),
    List.reverse_reverse]

lemma trimRight_concat {xs : List Char} {b : Char} (hb : isSpc b = false) :
    trimRight (xs ++ [b]) = xs ++ [b] := by
  unfold trimRight
  rw [List.reverse_append]
  simp only [List.reverse_cons, List.reverse_nil, List.nil_append,
    List.singleton_append]
  rw [dropWhile_cons_false _ hb]
  simp

lemma trim_cons_concat {a b : Char} {mid : List Char} (ha : isSpc a = false)
    (hb : isSpc b = false) : trim (a :: (mid ++ [b])) = a :: (mid ++ [b]) := by
  unfold trim
  rw [dropWhile_cons_false _ ha]
  have : a :: (mid ++ [b]) = (a :: mid) ++ [b] := rfl
  rw [this, trimRight_concat hb]

lemma trim_single {a : Char} (ha : isSpc a = false) : trim [a] = [a] := by
  unfold trim
  rw [dropWhile_cons_false _ ha]
  unfold trimRight
  simp only [List.reverse_singleton]
  rw [dropWhile_cons_false _ ha]
  rfl

lemma trim_eq_self_of_ends {l : List Char}
    (h1 : ∀ c, l.head? = some c → isSpc c = false)
    (h2 : ∀ c, l.getLast? = some c → isSpc c = false) : trim l = l := by
  cases l with
  | nil => rfl
  | cons a t =>
    have ha : isSpc a = false := h1 a rfl
    rcases List.eq_nil_or_concat t with rfl | ⟨xs, b, rfl⟩
    · exact trim_single ha
    · have hb : isSpc b = false := by
        apply h2
        rw [List.concat_eq_append]
        show ((a :: xs) ++ [b]).getLast? = some b
        exact List.getLast?_concat _
      rw [List.concat_eq_append]
      exact trim_cons_concat ha hb

lemma splitComma_no_comma {l : List Char} (h : ',' ∉ l) :
    splitComma l = [l] := by
  induction l with
  | nil => rfl
  | cons c rest ih =>
    have hc : ¬ c = ',' := fun hcontra => h (by simp [hcontra])
    simp only [splitComma]
    rw [if_neg hc, ih (fun hcontra => h (by simp [hcontra]))]

lemma splitComma_append {a : List Char} (r : List Char) (h : ',' ∉ a) :
    splitComma (a ++ ',' :: r) = a :: splitComma r := by
  induction a with
  | nil =>
    simp only [List.nil_append, splitComma]
    simp
  | cons c rest ih =>
    have hc : ¬ c = ',' := fun hcontra => h (by simp [hcontra])
    simp only [List.cons_append, splitComma]
    rw [if_neg hc]
    simp only [List.append_eq]
    rw [ih (fun hcontra => h (by simp [hcontra]))]

lemma fields_three {a b c : List Char} (ha : a ≠ []) (hb : b ≠ [])
    (hc : c ≠ []) (hca : ',' ∉ a) (hcb : ',' ∉ b) (hcc : ',' ∉ c) :
    fields (a ++ ',' :: (b ++ ',' :: c)) = [a, b, c] := by
  unfold fields
  rw [splitComma_append _ hca, splitComma_append _ hcb, splitComma_no_comma hcc]
  simp [List.filter, List.isEmpty_iff, ha, hb, hc]

lemma takeWhile_all {p : Char → Bool} {l : List Char}
    (h : ∀ c ∈ l, p c = true) :
    l.takeWhile p = l ∧ l.dropWhile p = [] := by
  induction l with
  | nil => exact ⟨rfl, rfl⟩
  | cons a t ih =>
    have ha := h a (by simp)
    obtain ⟨ih1, ih2⟩ := ih (fun c hc => h c (by simp [hc]))
    constructor
    · simp [List.takeWhile, ha, ih1]
    · simp [List.dropWhile, ha, ih2]

lemma takeWhile_append_stop {p : Char → Bool} {A : List Char} {x : Char}
    (B : List Char) (hA : ∀ c ∈ A, p c = true) (hx : p x = false) :
    (A ++ x :: B).takeWhile p = A ∧ (A ++ x :: B).dropWhile p = x :: B := by
  induction A with
  | nil =>
    constructor
    · simp [List.takeWhile, hx]
    · simp [List.dropWhile, hx]
  | cons a t ih =>
    have ha := hA a (by simp)
    obtain ⟨ih1, ih2⟩ := ih (fun c hc => hA c (by simp [hc]))
    constructor
    · simp [List.takeWhile, ha, ih1]
    · simp [List.dropWhile, ha, ih2]

lemma rhe_nonneg {x : ℚ} (h : 0 ≤ x) : 0 ≤ rhe x := by
  unfold rhe
  have hf : 0 ≤ Int.floor x := Int.floor_nonneg.mpr h
  split_ifs <;> omega

lemma floor_lt_of_not_half {x : ℚ} {N : ℤ} (h : x ≤ (N : ℚ))
    (hne : ¬ 2 * (x.num - Int.floor x * x.den) < (x.den : ℤ)) :
    Int.floor x < N := by
  have hf : Int.floor x ≤ N := by simpa using Int.floor_le_floor h
  rcases lt_or_eq_of_le hf with hlt | heq
  · exact hlt
  · exfalso
    have hle : x ≤ ((Int.floor x : ℤ) : ℚ) := by rw [heq]; exact_mod_cast h
    have hge : ((Int.floor x : ℤ) : ℚ) ≤ x := Int.floor_le x
    have hx : x = ((Int.floor x : ℤ) : ℚ) := le_antisymm hle hge
    have hnum : x.num = Int.floor x := by
      have := congrArg Rat.num hx
      rwa [Rat.num_intCast] at this
    have hden : x.den = 1 := by
      have := congrArg Rat.den hx
      rwa [Rat.den_intCast] at this
    rw [hnum, hden] at hne
    push_cast at hne
    omega

lemma rhe_le {x : ℚ} {N : ℤ} (h : x ≤ (N : ℚ)) : rhe x ≤ N := by
  unfold rhe
  have hf : Int.floor x ≤ N := by simpa using Int.floor_le_floor h
  split_ifs with h1 h2 h3
  · exact hf
  · have := floor_lt_of_not_half h h1
    omega
  · exact hf
  · have := floor_lt_of_not_half h h1
    omega

lemma qscale100_eq (q : ℚ) : qscale100 q = 100 * q := by
  unfold qscale100
  rw [Rat.mkRat_eq_div]
  push_cast
  rw [mul_div_assoc, Rat.num_div_den]

lemma round2_bounds {p : ℚ} (h0 : 0 ≤ p) (h1 : p ≤ 1000000000) :
    0 ≤ rhe (qscale100 p) ∧ rhe (qscale100 p) ≤ 100000000000 ∧
      0 ≤ round2 p ∧ round2 p ≤ 1000000000 := by
  have hs0 : 0 ≤ qscale100 p := by
    rw [qscale100_eq]
    positivity
  have hs1 : qscale100 p ≤ ((100000000000 : ℤ) : ℚ) := by
    rw [qscale100_eq]
    push_cast
    nlinarith
  have hr0 := rhe_nonneg hs0
  have hr1 := rhe_le hs1
  refine ⟨hr0, hr1, ?_, ?_⟩
  · unfold round2
    rw [Rat.mkRat_eq_div]
    positivity
  · unfold round2
    rw [Rat.mkRat_eq_div]
    push_cast
    rw [div_le_iff₀ (by norm_num : (0 : ℚ) < 100)]
    norm_num
    exact_mod_cast hr1

lemma isDigit_not_sign {c : Char} (h : c.isDigit = true) :
    c ≠ '-' ∧ c ≠ '+' :=
  ⟨fun heq => by subst heq; exact absurd h (by decide),
    fun heq => by subst heq; exact absurd h (by decide)⟩

lemma pad2_spec {m : Nat} (h : m < 100) :
    (∀ c ∈ pad2 m, c.isDigit = true) ∧ digitsVal (pad2 m) = m ∧
      (pad2 m).length = 2 := by
  have h1 : m / 10 < 10 := by omega
  have h2 : m % 10 < 10 := by omega
  obtain ⟨d1, v1, -, -, -, -, -, -⟩ := digitChar_facts h1
  obtain ⟨d2, v2, -, -, -, -, -, -⟩ := digitChar_facts h2
  refine ⟨?_, ?_, rfl⟩
  · intro c hc
    simp only [pad2, List.mem_cons, List.mem_singleton, List.not_mem_nil,
      or_false] at hc
    rcases hc with rfl | rfl
    exacts [d1, d2]
  · have hfold : digitsVal (pad2 m) =
        10 * (10 * 0 + digitVal (digitChar (m / 10))) +
          digitVal (digitChar (m % 10)) := rfl
    rw [hfold, v1, v2]
    omega

lemma parseIntTok_natChars (m : Nat) :
    parseIntTok (natChars m) = some ((m : Nat) : Int) := by
  obtain ⟨hne, hdig, hval⟩ := natChars_spec m
  rw [parseIntTok_digits hne hdig, hval]

lemma parseDecMantissa_fmt {A B : List Char} (hA : A ≠ [])
    (hAd : ∀ c ∈ A, c.isDigit = true) (hBd : ∀ c ∈ B, c.isDigit = true) :
    parseDecMantissa (A ++ '.' :: B) =
      some (mkRat (digitsVal A * 10 ^ B.length + digitsVal B)
        (10 ^ B.length), []) := by
  obtain ⟨ht, hd⟩ := takeWhile_append_stop B hAd
    (by decide : Char.isDigit '.' = false)
  obtain ⟨htB, hdB⟩ := takeWhile_all hBd
  unfold parseDecMantissa
  rw [ht, hd]
  simp only [List.head?_cons, List.tail_cons]
  rw [htB, hdB, if_pos trivial, if_neg (by simp [hA])]

lemma strtodFull_digits_dot {A B : List Char} (hA : A ≠ [])
    (hAd : ∀ c ∈ A, c.isDigit = true) (hBd : ∀ c ∈ B, c.isDigit = true) :
    strtodFull (A ++ '.' :: B) =
      some (mkRat (digitsVal A * 10 ^ B.length + digitsVal B)
        (10 ^ B.length)) := by
  obtain ⟨c0, cs, rfl⟩ := List.exists_cons_of_ne_nil hA
  have hc0 : c0.isDigit = true := hAd c0 (by simp)
  obtain ⟨hm, hp⟩ := isDigit_not_sign hc0
  have hne : ¬ ((c0 :: cs) ++ '.' :: B = []) := by simp
  have hhead : ((c0 :: cs) ++ '.' :: B).head? = some c0 := rfl
  have hcond : ¬ (((c0 :: cs) ++ '.' :: B).head? = some '-' ∨
      ((c0 :: cs) ++ '.' :: B).head? = some '+') := by
    rw [hhead]
    simp [hm, hp]
  have hneg : ¬ (((c0 :: cs) ++ '.' :: B).head? = some '-') := by
    rw [hhead]
    simp [hm]
  unfold strtodFull
  rw [if_neg hne, if_neg hcond, parseDecMantissa_fmt hA hAd hBd]
  simp only
  rw [if_pos trivial, if_neg hneg]

/-- Conditions under which one stored item survives the save/load round
trip: a valid name (as all reachable stores have) that additionally contains
no comma (the format has no escaping, inventory.c line 49 of the header
comment), contains no newline (a newline would split the saved line in two
on re-reading), does not begin with `#` (the saved line would re-read as a
comment) and carries no leading/trailing whitespace (load trims), plus
quantity and price inside the ranges load accepts. -/
def GoodItem (it : Item) : Prop :=
  it.name ≠ [] ∧ it.name.length < MAX_NAME_LEN ∧
    ',' ∉ it.name ∧ '\n' ∉ it.name ∧
    it.name.head? ≠ some '#' ∧
    it.name.head?.all (fun c => ! isSpc c) = true ∧
    it.name.getLast?.all (fun c => ! isSpc c) = true ∧
    0 ≤ it.quantity ∧ it.quantity ≤ 1000000 ∧
    0 ≤ it.price ∧ it.price ≤ 1000000000

/-- The image of one item under the save/load round trip: same name, same
quantity, price rounded to two decimal places exactly as `%.2f` prints
it. -/
def roundIt (it : Item) : Item := { it with price := round2 it.price }

lemma isDigit_not_special {c : Char} (h : c.isDigit = true) :
    c ≠ ',' ∧ c ≠ '#' ∧ isSpc c = false := by
  refine ⟨fun heq => by subst heq; exact absurd h (by decide),
    fun heq => by subst heq; exact absurd h (by decide), ?_⟩
  by_contra hs
  rw [Bool.not_eq_false] at hs
  unfold isSpc at hs
  simp only [Bool.or_eq_true, beq_iff_eq] at hs
  rcases hs with ((((rfl | rfl) | rfl) | rfl) | rfl) | rfl <;>
    exact absurd h (by decide)

lemma intChars_nonneg {q : Int} (h : 0 ≤ q) :
    intChars q = natChars q.toNat := by
  unfold intChars
  rw [if_neg (not_lt.mpr h)]

lemma parseIntTok_intChars {q : Int} (h : 0 ≤ q) :
    parseIntTok (intChars q) = some q := by
  rw [intChars_nonneg h, parseIntTok_natChars, Int.toNat_of_nonneg h]

lemma fmt2_eq_fmt2nn {p : ℚ} (h : 0 ≤ p) : fmt2 p = fmt2nn p := by
  unfold fmt2
  rw [if_neg (not_lt.mpr h)]

lemma strtodFull_fmt2nn {p : ℚ} (h0 : 0 ≤ p) :
    strtodFull (fmt2nn p) = some (round2 p) := by
  obtain ⟨hAne, hAdig, hAval⟩ :=
    natChars_spec ((rhe (qscale100 p)).toNat / 100)
  have hmod : (rhe (qscale100 p)).toNat % 100 < 100 := Nat.mod_lt _ (by omega)
  obtain ⟨hBdig, hBval, hBlen⟩ := pad2_spec hmod
  unfold fmt2nn
  rw [strtodFull_digits_dot hAne hAdig hBdig, hBlen, hAval, hBval]
  have hr0 : 0 ≤ rhe (qscale100 p) := by
    apply rhe_nonneg
    rw [qscale100_eq]
    positivity
  congr 1
  unfold round2
  have h2 : ((10 : ℤ) ^ 2) = 100 := by norm_num
  have harith : (((rhe (qscale100 p)).toNat / 100 : ℕ) : ℤ) * 10 ^ 2 +
      (((rhe (qscale100 p)).toNat % 100 : ℕ) : ℤ) = rhe (qscale100 p) := by
    rw [h2]
    omega
  rw [harith]
  norm_num

lemma fmt2nn_chars {p : ℚ} :
    ∀ c ∈ fmt2nn p, c ≠ ',' ∧ isSpc c = false := by
  intro c hc
  unfold fmt2nn at hc
  obtain ⟨-, hAdig, -⟩ := natChars_spec ((rhe (qscale100 p)).toNat / 100)
  rcases List.mem_append.mp hc with hm | hm
  · obtain ⟨h1, -, h3⟩ := isDigit_not_special (hAdig c hm)
    exact ⟨h1, h3⟩
  · rcases List.mem_cons.mp hm with rfl | hm2
    · exact ⟨by decide, by decide⟩
    · have hmod : (rhe (qscale100 p)).toNat % 100 < 100 :=
        Nat.mod_lt _ (by omega)
      obtain ⟨hBdig, -, -⟩ := pad2_spec hmod
      obtain ⟨h1, -, h3⟩ := isDigit_not_special (hBdig c hm2)
      exact ⟨h1, h3⟩

lemma fmt2nn_ne_nil {p : ℚ} : fmt2nn p ≠ [] := by
  unfold fmt2nn
  obtain ⟨hAne, -, -⟩ := natChars_spec ((rhe (qscale100 p)).toNat / 100)
  intro hcontra
  exact hAne (List.append_eq_nil.mp hcontra).1

lemma natChars_chars (m : Nat) :
    ∀ c ∈ natChars m, c ≠ ',' ∧ isSpc c = false := by
  intro c hc
  obtain ⟨-, hdig, -⟩ := natChars_spec m
  obtain ⟨h1, -, h3⟩ := isDigit_not_special (hdig c hc)
  exact ⟨h1, h3⟩

lemma itemLine_eq {it : Item} (h : 0 ≤ it.quantity) (hp : 0 ≤ it.price) :
    itemLine it = it.name ++ ',' :: (natChars it.quantity.toNat ++
      ',' :: fmt2nn it.price) := by
  unfold itemLine
  rw [intChars_nonneg h, fmt2_eq_fmt2nn hp]
  simp [List.cons_append, List.append_assoc]

lemma getLast?_line {name qs A2 : List Char} {m : Nat} :
    (name ++ ',' :: (qs ++ ',' :: (A2 ++ '.' :: pad2 m))).getLast? =
      some (digitChar (m % 10)) := by
  rw [List.getLast?_append_of_ne_nil _ (by simp)]
  show ([','] ++ (qs ++ ',' :: (A2 ++ '.' :: pad2 m))).getLast? = _
  rw [List.getLast?_append_of_ne_nil _ (by simp)]
  rw [List.getLast?_append_of_ne_nil _ (by simp)]
  show ([','] ++ (A2 ++ '.' :: pad2 m)).getLast? = _
  rw [List.getLast?_append_of_ne_nil _ (by simp)]
  rw [List.getLast?_append_of_ne_nil _ (by simp [pad2])]
  show (['.'] ++ pad2 m).getLast? = _
  rw [List.getLast?_append_of_ne_nil _ (by simp [pad2])]
  rfl

lemma trim_itemLine {it : Item} (hg : GoodItem it) :
    trim (itemLine it) = itemLine it := by
  obtain ⟨hne, -, -, -, -, hhead, hlast, hq0, -, hp0, -⟩ := hg
  obtain ⟨n0, ntail, hname⟩ := List.exists_cons_of_ne_nil hne
  apply trim_eq_self_of_ends
  · intro c hc
    rw [itemLine_eq hq0 hp0, hname] at hc
    simp only [List.cons_append, List.head?_cons, Option.some.injEq] at hc
    subst hc
    rw [hname] at hhead
    simpa using hhead
  · intro c hc
    rw [itemLine_eq hq0 hp0] at hc
    unfold fmt2nn at hc
    rw [getLast?_line] at hc
    simp only [Option.some.injEq] at hc
    subst hc
    obtain ⟨-, -, -, -, h5, -, -, -⟩ :=
      digitChar_facts (Nat.mod_lt ((rhe (qscale100 it.price)).toNat % 100)
        (by omega) : (rhe (qscale100 it.price)).toNat % 100 % 10 < 10)
    exact h5

lemma fields_itemLine {it : Item} (hg : GoodItem it) :
    fields (itemLine it) =
      [it.name, natChars it.quantity.toNat, fmt2nn it.price] := by
  obtain ⟨hne, -, hnc, -, -, -, -, hq0, -, hp0, -⟩ := hg
  rw [itemLine_eq hq0 hp0]
  apply fields_three hne
  · obtain ⟨h1, -, -⟩ := natChars_spec it.quantity.toNat
    exact h1
  · exact fmt2nn_ne_nil
  · exact hnc
  · intro hcontra
    exact ((natChars_chars it.quantity.toNat ',' hcontra).1) rfl
  · intro hcontra
    exact ((fmt2nn_chars ',' hcontra).1) rfl

lemma trim_natChars (m : Nat) : trim (natChars m) = natChars m :=
  trim_nospace (fun c hc => (natChars_chars m c hc).2)

lemma trim_fmt2nn {p : ℚ} : trim (fmt2nn p) = fmt2nn p :=
  trim_nospace (fun c hc => (fmt2nn_chars c hc).2)

lemma trim_goodName {it : Item} (hg : GoodItem it) : trim it.name = it.name := by
  obtain ⟨-, -, -, -, -, hhead, hlast, -, -, -, -⟩ := hg
  apply trim_eq_self_of_ends
  · intro c hc
    rw [hc] at hhead
    simpa using hhead
  · intro c hc
    rw [hc] at hlast
    simpa using hlast

lemma loadStep_itemLine {items : List Item} {lineno : Nat} {it : Item}
    (hg : GoodItem it)
    (hdup : ∀ a ∈ items, lowerStr a.name ≠ lowerStr it.name) :
    loadStep items lineno (itemLine it) = .inr (roundIt it) := by
  have hgc := hg
  obtain ⟨hne, hlen, -, -, -, -, -, hq0, hq1, hp0, hp1⟩ := hgc
  have hfind : find_item items it.name = none := find_item_eq_none.mpr hdup
  obtain ⟨-, -, hb0, hb1⟩ := round2_bounds hp0 hp1
  simp only [loadStep, fields_itemLine hg, trim_goodName hg, trim_natChars,
    trim_fmt2nn, parseIntTok_natChars, Int.toNat_of_nonneg hq0,
    strtodFull_fmt2nn hp0, hfind, Option.isSome_none]
  rw [if_neg (by
      have : it.name.length ≠ 0 := fun hc => hne (List.length_eq_zero.mp hc)
      omega),
    if_neg (by omega : ¬ (it.quantity < 0 ∨ 1000000 < it.quantity)),
    if_neg (by push_neg; exact ⟨hb0, hb1⟩)]
  simp [roundIt]

lemma head?_itemLine {it : Item} (hg : GoodItem it) :
    (itemLine it).head? = it.name.head? := by
  obtain ⟨hne, -, -, -, -, -, -, hq0, -, hp0, -⟩ := hg
  obtain ⟨n0, ntail, hname⟩ := List.exists_cons_of_ne_nil hne
  rw [itemLine_eq hq0 hp0, hname]
  rfl

lemma loadLines_itemLine_cons {items : List Item} {msgs : List Msg} {n : Nat}
    {it : Item} {ls : List (List Char)} (hg : GoodItem it)
    (hdup : ∀ a ∈ items, lowerStr a.name ≠ lowerStr it.name)
    (hcap : items.length < MAX_ITEMS) :
    loadLines items msgs n (itemLine it :: ls) =
      loadLines (items ++ [roundIt it]) msgs (n + 1) ls := by
  have hgc := hg
  obtain ⟨hne, -, -, -, hhash, -, -, hq0, -, hp0, -⟩ := hgc
  obtain ⟨n0, ntail, hname⟩ := List.exists_cons_of_ne_nil hne
  have hcond : ¬ ((itemLine it).isEmpty = true ∨
      (itemLine it).head? = some '#') := by
    push_neg
    constructor
    · rw [itemLine_eq hq0 hp0, hname]
      simp
    · rw [head?_itemLine hg]
      exact hhash
  rw [loadLines_cons, trim_itemLine hg, if_neg hcond,
    if_neg (not_le.mpr hcap), loadStep_itemLine hg hdup]

lemma loadLines_save :
    ∀ (rest acc : List Item) (msgs : List Msg) (n : Nat),
      (∀ x ∈ rest, GoodItem x) →
      acc.length + rest.length ≤ MAX_ITEMS →
      (∀ a ∈ acc, ∀ r ∈ rest, lowerStr a.name ≠ lowerStr r.name) →
      List.Pairwise (fun a b => lowerStr a.name ≠ lowerStr b.name) rest →
      loadLines acc msgs n (rest.map itemLine) =
        (acc ++ rest.map roundIt, msgs) := by
  intro rest
  induction rest with
  | nil =>
    intro acc msgs n _ _ _ _
    simp [loadLines]
  | cons it rest ih =>
    intro acc msgs n hgood hlen hdisj hpw
    obtain ⟨hpw1, hpw2⟩ := List.pairwise_cons.mp hpw
    simp only [List.map_cons]
    rw [loadLines_itemLine_cons (hgood it (by simp))
      (fun a ha => hdisj a ha it (by simp))
      (by simp only [List.length_cons] at hlen; omega)]
    rw [ih (acc ++ [roundIt it]) msgs (n + 1)
      (fun x hx => hgood x (by simp [hx]))
      (by simp only [List.length_cons] at hlen
          simp only [List.length_append, List.length_singleton]
          omega)
      ?_ hpw2]
    · simp
    · intro a ha r hr
      rcases List.mem_append.mp ha with ha1 | ha2
      · exact hdisj a ha1 r (by simp [hr])
      · simp only [List.mem_singleton] at ha2
        subst ha2
        show lowerStr (roundIt it).name ≠ lowerStr r.name
        exact hpw1 r hr

/-- C5 counterexample: the reachable one-item store holding the item
"#x" (a perfectly legal Add) does NOT survive Save-then-Load: its saved
line starts with `#`, so Load skips it as a comment and reproduces the
EMPTY item set, not an equivalent one — refuting the claim for every store
state. -/
theorem claim_C5_counterexample :
    Reach ((add_item [] ['#', 'x'] 5 1).2) ∧
      (add_item [] ['#', 'x'] 5 1).2 = [⟨['#', 'x'], 5, 1⟩] ∧
      (load_inventory [] (some (saveLines [⟨['#', 'x'], 5, 1⟩]))).1 = [] :=
  ⟨Reach.add [] ['#', 'x'] 5 1 Reach.init, by decide, by decide⟩

/-- C5 (corrected): Save followed by Load reproduces the same names in the
same order, the same quantities, and prices equal to the saved prices
rounded to two decimal places (`roundIt`, i.e. `%.2f` round-half-even), with
no warnings and a successful return — PROVIDED every stored item survives
the format (`GoodItem`: its name is nonempty, shorter than 64, has no comma,
no newline, no leading `#`, no surrounding whitespace; quantity in
[0, 1000000]; price in [0, 10^9]), the store is within capacity and names
are pairwise case-insensitively distinct (as reachable stores' are).  The
unrestricted claim is refuted by the counterexample. -/
theorem claim_C5_roundtrip (items : List Item)
    (hgood : ∀ x ∈ items, GoodItem x)
    (hlen : items.length ≤ MAX_ITEMS)
    (hnodup : List.Pairwise (fun a b => lowerStr a.name ≠ lowerStr b.name)
      items) :
    load_inventory [] (some (saveLines items)) =
      (items.map roundIt, [], true) := by
  simp only [load_inventory, saveLines]
  rw [loadLines_cons, if_pos (by decide :
    (trim headerLine).isEmpty = true ∨ (trim headerLine).head? = some '#')]
  rw [loadLines_save items [] [] 1 hgood (by simpa using hlen) (by simp)
    hnodup]
  simp

/-- C5 witness: the round-trip theorem applied to the concrete store holding
the single item (Apple, 5, $1): saving writes `Apple,5,1.00` and loading
reproduces the store exactly. -/
theorem claim_C5_roundtrip_witness :
    load_inventory [] (some (saveLines [⟨['A', 'p', 'p', 'l', 'e'], 5, 1⟩])) =
      ([⟨['A', 'p', 'p', 'l', 'e'], 5, 1⟩].map roundIt, [], true) := by
  apply claim_C5_roundtrip
  · intro x hx
    simp only [List.mem_singleton] at hx
    subst hx
    unfold GoodItem
    decide
  · decide
  · simp
